import Mathlib

/-!
Shallow embedding of the path-generation core of `src/madcad/standard.py`
(the `linrange` range stepper, the standard-dimension table lookups of
`nut` and `washer`, and the coil-spring path generators), together with
theorems settling the specification claims about them.

Numbers are idealised: Python floats become exact rationals or reals.
-/

namespace Madcad

section RangeStepper

variable {α : Type} [LinearOrderedField α] [FloorRing α]

/-- Modelled from the spec: the constant `NUMPREC` comes from
`madcad.mathutils`, which is not under `src/`; the spec describes it as
"a small numerical tolerance ... added to the stop bound to avoid
floating-point truncation dropping the last legitimate value".  Its
value 1e-13 is taken as an exact rational. -/
def NUMPREC : α := 1 / 10 ^ 13

/-- The `while t <= stop: yield t; t += step` loop of `linrange`
(src/madcad/standard.py lines 742-745), as the list of yielded values of
a terminating run.  The source loop does not terminate when `step <= 0`
and `t <= stop`: this definition returns `[]` in that case, so it is
used only for claims about the returned enumeration of terminating runs;
`lrDiverges` below states exactly that non-termination condition of the
source, and `lrEmits` characterizes the values the source loop yields in
terminating and non-terminating runs alike. -/
def lrLoop [FloorRing α] (stop step t : α) : List α :=
  if h : t ≤ stop ∧ 0 < step then t :: lrLoop stop step (t + step) else []
termination_by (⌈(stop - t) / step⌉ + 1).toNat
decreasing_by
  have hstep : (0:α) < step := h.2
  have h1 : (0:α) ≤ (stop - t) / step := div_nonneg (by linarith [h.1]) hstep.le
  have h2 : (0:ℤ) ≤ ⌈(stop - t) / step⌉ := Int.ceil_nonneg h1
  have h3 : (stop - (t + step)) / step = (stop - t) / step - 1 := by
    rw [show stop - (t + step) = (stop - t) - step by ring, sub_div,
      div_self (ne_of_gt hstep)]
  rw [h3, Int.ceil_sub_one]
  omega

/-- Argument normalization of `linrange` (src/madcad/standard.py lines
736-740): missing stop, step from div, silent sign flip, `end` flag
adjustment and the `NUMPREC` tolerance.  Returns the triple
`(start, stop, step)` the while loop then runs on. -/
def lrNormalize (start : α) (stop? : Option α) (step? : Option α) (div : ℕ)
    (endFlag : Bool) : α × α × α :=
  let s : α × α :=
    match stop? with
    | none => ((0:α), start)
    | some v => (start, v)
  let step : α :=
    match step? with
    | none => (s.2 - s.1) / ((div : α) + 1)
    | some v => if v * (s.2 - s.1) < 0 then -v else v
  let stop : α := if endFlag then s.2 else s.2 - step
  (s.1, stop + NUMPREC, step)

/-- The generator `linrange(start, stop, step, div, end)`
(src/madcad/standard.py lines 722-745) as the list of yielded values. -/
def linrange (start : α) (stop? : Option α) (step? : Option α) (div : ℕ)
    (endFlag : Bool) : List α :=
  lrLoop (lrNormalize start stop? step? div endFlag).2.1
    (lrNormalize start stop? step? div endFlag).2.2
    (lrNormalize start stop? step? div endFlag).1

/-- Value of the loop variable `t` of the `linrange` while loop after `k`
iterations: `start + k * step`. -/
def lrIter (start step : α) (k : ℕ) : α := start + (k : α) * step

/-- The `while t <= stop` loop of `linrange` runs forever exactly when
every iterate satisfies the loop condition. -/
def lrDiverges (start stop step : α) : Prop := ∀ k : ℕ, lrIter start step k ≤ stop

/-- Value `t` is yielded by the `linrange` while loop: for some iteration
count `k`, `t` is the loop variable after `k` iterations and every check
of the loop condition up to and including the `k`-th one passes.  This
characterizes the emitted values of terminating and non-terminating runs
alike; `lrLoop_mem_iff_emits` below ties it to `lrLoop` on terminating
runs. -/
def lrEmits (start stop step : α) (t : α) : Prop :=
  ∃ k : ℕ, t = lrIter start step k ∧ ∀ j : ℕ, j ≤ k → lrIter start step j ≤ stop

end RangeStepper

section Tables

/-- The table `standard_hexnuts` of src/madcad/standard.py lines 333-363:
(thread, w, h) per EN ISO 4032. -/
def standard_hexnuts : List (ℚ × ℚ × ℚ) := [
  (1.6,  3.2, 1.3),
  (2,    4,   1.6),
  (2.5,  5,   2),
  (3,    5.5, 2.4),
  (3.5,  6,   2.8),
  (4,    7,   3.2),
  (5,    8,   4.7),
  (6,    10,  5.2),
  (8,    13,  6.8),
  (10,   16,  8.4),
  (12,   18,  10.8),
  (14,   21,  12.8),
  (16,   24,  14.8),
  (18,   27,  15.8),
  (20,   30,  18),
  (22,   34,  19.4),
  (24,   36,  21.5),
  (27,   41,  23.8),
  (30,   46,  25.6),
  (33,   50,  38.7),
  (36,   55,  31),
  (39,   60,  33.4),
  (42,   65,  34),
  (45,   70,  36),
  (48,   75,  38),
  (52,   80,  42),
  (56,   85,  45),
  (60,   90,  48),
  (64,   95,  51)]

/-- The table `standard_washers` of src/madcad/standard.py lines 407-437:
(nominal screw, interior size, exterior size, thickness). -/
def standard_washers : List (ℚ × ℚ × ℚ × ℚ) := [
  (1.6, 1.7, 4,   0.3),
  (2,   2.2, 5,   0.3),
  (2.5, 2.7, 6,   0.5),
  (2.6, 2.8, 7,   0.5),
  (3,   3.2, 7,   0.5),
  (3.5, 3.7, 8,   0.5),
  (4,   4.3, 9,   0.8),
  (5,   5.3, 10,  1),
  (6,   6.4, 12,  1.6),
  (7,   7.4, 14,  1.6),
  (8,   8.4, 16,  1.6),
  (10,  10.5, 20, 2),
  (12,  13,  24,  2.5),
  (14,  15,  28,  2.5),
  (16,  17,  30,  3),
  (18,  19,  34,  3),
  (20,  21,  37,  3),
  (22,  23,  39,  3),
  (24,  25,  44,  4),
  (27,  28,  50,  4),
  (30,  31,  56,  4),
  (33,  34,  60,  5),
  (36,  37,  66,  5),
  (39,  40,  72,  6),
  (42,  43,  78,  7),
  (45,  46,  85,  7),
  (48,  50,  92,  8),
  (52,  54,  98,  8),
  (56,  58,  105, 9)]

/-- Modelled from the spec: the function `bisect` used by `nut` and
`washer` comes from `madcad.mathutils`, which is not under `src/`; the
spec describes the lookup as "a sorted-table nearest/exact lookup by
nominal diameter".  This returns the entry of the list whose key is
nearest to `d` (the earlier entry wins on ties), `none` on the empty
list. -/
def nearestEntry {β : Type} (key : β → ℚ) (d : ℚ) : List β → Option β
  | [] => none
  | b :: bs =>
    match nearestEntry key d bs with
    | none => some b
    | some m => some (if |key m - d| < |key b - d| then m else b)

/-- Result of a table lookup: either the chosen entry or the raised
error message. -/
def exOk {ε β : Type} : Except ε β → Bool
  | .ok _ => true
  | .error _ => false

/-- The table lookup of `nut(d)` (src/madcad/standard.py lines 294-297):
the nearest `standard_hexnuts` entry is taken and an exact match of the
nominal diameter is required, else the no-standard-size error is raised.
The geometry construction `hexnut(*args)` is external and elided: the
chosen dimension triple is returned. -/
def nut_lookup (d : ℚ) : Except String (ℚ × ℚ × ℚ) :=
  match nearestEntry (fun a => a.1) d standard_hexnuts with
  | none => .error "no standard nut for the given diameter"
  | some args =>
    if args.1 ≠ d then .error "no standard nut for the given diameter"
    else .ok args

/-- The table lookup of `washer(d)` with `e` and `h` unspecified
(src/madcad/standard.py lines 381-386): the nearest `standard_washers`
entry is accepted when its nominal diameter is within 20 percent
relative difference of `d`, else the error is raised.  The extrusion of
the washer surface is external and elided: the chosen entry is
returned. -/
def washer_lookup (d : ℚ) : Except String (ℚ × ℚ × ℚ × ℚ) :=
  match nearestEntry (fun a => a.1) d standard_washers with
  | none => .error "no standard nut for the given diameter"
  | some args =>
    if |args.1 - d| / d < 0.2 then .ok args
    else .error "no standard nut for the given diameter"

end Tables

section Springs

/-- Points of madcad, `vec3`: a triple of real coordinates. -/
abbrev Vec3 : Type := ℝ × ℝ × ℝ

/-- Componentwise addition of points; `Wire.transform(vec3)` translates
every point by that vector. -/
noncomputable def vadd (p q : Vec3) : Vec3 :=
  (p.1 + q.1, p.2.1 + q.2.1, p.2.2 + q.2.2)

/-- The glm `sign` function used by `coilspring_torsion`. -/
noncomputable def sign (x : ℝ) : ℝ :=
  if 0 < x then 1 else if x < 0 then -1 else 0

/-- The linear map `scaledir(Z,-1)*scaledir(X,-1)` of
src/madcad/standard.py line 581: negate the x and z coordinates. -/
def mirrorXZ (p : Vec3) : Vec3 := (-p.1, p.2.1, -p.2.2)

/-- The rotation `angleAxis(angle, Z)` of src/madcad/standard.py
line 582: rotation by `angle` around the Z axis. -/
noncomputable def rotZ (angle : ℝ) (p : Vec3) : Vec3 :=
  (p.1 * Real.cos angle - p.2.1 * Real.sin angle,
   p.1 * Real.sin angle + p.2.1 * Real.cos angle,
   p.2.2)

/-- Modelled from the spec: `Wire.mergeclose` comes from `madcad.mesh`,
which is not under `src/`; the spec says "adjacent coincident endpoints
are merged (deduplicated) after concatenation".  Consecutive equal
points are collapsed to one. -/
noncomputable def mergeclose : List Vec3 → List Vec3
  | [] => []
  | [p] => [p]
  | p :: q :: rest =>
    if p = q then mergeclose (q :: rest) else p :: mergeclose (q :: rest)

/-- One sampled point of a helix loop of `coilspring_compression`
(src/madcad/standard.py lines 465, 470, 475): radius `r`, angle `t`,
axial offset advancing from `z0` by `pitch` per turn past `t0`. -/
noncomputable def helixPoint (r t0 z0 pitch t : ℝ) : Vec3 :=
  (r * Real.cos t, r * Real.sin t, z0 + (t - t0) / (2 * Real.pi) * pitch)

/-- The path built by `coilspring_compression(length, d, thickness,
solid=False)` (src/madcad/standard.py lines 444-480).  `div` stands for
`settings.curve_resolution(d*pi, 2*pi)`, an external configuration
policy (madcad.settings is not under `src/`), kept as a parameter.
Falsy (zero) `d` and `thickness` default as in the source.  The group
tags of the three `Wire` parts do not affect the point sequence and are
elided.  Caution: division here is total (`x / 0 = 0`) while the source
raises `ZeroDivisionError` in the line-469 division when the coil step
`e = r` is zero, i.e. exactly at `thickness = d/2`; the theorems below
therefore use this model only away from that boundary (`r ≠ 0`). -/
noncomputable def coilspring_compression_path (length d thickness : ℝ)
    (div : ℕ) : List Vec3 :=
  let d := if d = 0 then length * 0.2 else d
  let thickness := if thickness = 0 then d * 0.1 else thickness
  let r := d / 2 - thickness
  let e := r
  let step := 2 * Real.pi / ((div : ℝ) + 1)
  let t0a := (0 : ℝ)
  let z0a := -(0.5 * length)
  let topT := linrange t0a (some (t0a + 4 * Real.pi)) (some step) 0 true
  let top := topT.map (helixPoint r t0a z0a thickness)
  let t0b := topT.getLast?.getD t0a
  let z0b := -(0.5 * length) + 2 * thickness
  let coilT := linrange t0b
    (some (t0b + 2 * Real.pi * (length - 4 * thickness) / e)) (some step) 0 true
  let coil := coilT.map (helixPoint r t0b z0b e)
  let t0c := coilT.getLast?.getD t0b
  let z0c := 0.5 * length - 2 * thickness
  let botT := linrange t0c (some (t0c + 4 * Real.pi)) (some step) 0 true
  let bot := botT.map (helixPoint r t0c z0c thickness)
  top ++ coil ++ bot

/-- The derived quantities of `coilspring_tension` (src/madcad/standard.py
lines 501-509): coil radius `r`, `spring_length`, active-coil count
`ncoil` and hook offset `hold`, with the falsy defaults of `d` and
`thickness` applied first. -/
noncomputable def coilspring_tension_derived (length d thickness : ℝ) :
    ℝ × ℝ × ℝ × ℝ :=
  let d := if d = 0 then length * 0.2 else d
  let thickness := if thickness = 0 then d * 0.1 else thickness
  let r := d / 2 - thickness
  let spring_length := length - 2 * r
  let ncoil := (⌊spring_length / thickness⌋ : ℝ) - 0.5
  let hold := 0.5 * length - r
  (r, spring_length, ncoil, hold)

/-- The hook-length clamp of `coilspring_torsion` (src/madcad/standard.py
lines 570-572): `c = thickness * sign(hook)`, and `hook` is replaced by
`c` when `abs(c) > abs(hook)`. -/
noncomputable def torsion_hook_eff (thickness hook : ℝ) : ℝ :=
  let c := thickness * sign hook
  if |hook| < |c| then c else hook

/-- The fractional coil turn count of `coilspring_torsion`
(src/madcad/standard.py lines 556-559): with the included angle
`pi - angle`, `ncoil = ceil(length/thickness) + angle/(2*pi)`. -/
noncomputable def torsion_ncoil (angle length thickness : ℝ) : ℝ :=
  (⌈length / thickness⌉ : ℝ) + (Real.pi - angle) / (2 * Real.pi)

/-- The coil start height of `coilspring_torsion`
(src/madcad/standard.py line 564): `z0 = -0.5 * ncoil * thickness`. -/
noncomputable def torsion_z0 (angle length thickness : ℝ) : ℝ :=
  -(0.5 * torsion_ncoil angle length thickness * thickness)

/-- The sampled coil of `coilspring_torsion` (src/madcad/standard.py
lines 565-567): a helix with the 90-degree rotated trig mapping, angle
stepped by `linrange(0, 2*pi*ncoil, step)`. -/
noncomputable def torsion_coil (angle d length thickness : ℝ) (div : ℕ) :
    List Vec3 :=
  (linrange 0 (some (2 * Real.pi * torsion_ncoil angle length thickness))
    (some (2 * Real.pi / ((div : ℝ) + 1))) 0 true).map
    (fun t => (-((d / 2 - thickness) * Real.sin t),
      (d / 2 - thickness) * Real.cos t,
      torsion_z0 angle length thickness + t / (2 * Real.pi) * thickness))

/-- The top arm of `coilspring_torsion` (src/madcad/standard.py lines
570-578): the hooked arm polyline, translated by the coil start point
`coil0`. -/
noncomputable def torsion_top (arm thickness hook : ℝ) (coil0 : Vec3) :
    List Vec3 :=
  [(arm, (0:ℝ), torsion_hook_eff thickness hook),
   (arm, 0, thickness * sign hook),
   (arm - |thickness * sign hook|, 0, 0),
   ((0:ℝ), (0:ℝ), (0:ℝ))].map (fun p => vadd p coil0)

/-- Body of `coilspring_torsion` after its falsy defaults are resolved
(src/madcad/standard.py lines 554-587): the coil, the two hooked arms
(the bottom one the flipped, mirrored and rotated image of the top one),
concatenation and merge of coincident neighbours.  `div` stands for the
external `settings.curve_resolution(d*pi, 2*pi)`. -/
noncomputable def torsion_core (arm angle d length thickness hook : ℝ)
    (div : ℕ) : List Vec3 :=
  let coil := torsion_coil angle d length thickness div
  let coil0 := coil.head?.getD ((0:ℝ), (0:ℝ), (0:ℝ))
  let top := torsion_top arm thickness hook coil0
  let bot := ((top.reverse).map mirrorXZ).map (rotZ (Real.pi - angle))
  mergeclose (top ++ coil ++ bot)

/-- The path built by `coilspring_torsion(arm, angle, d, length,
thickness, hook, solid=False)` (src/madcad/standard.py lines 539-590):
the falsy defaults of lines 550-553 applied in source order, then the
body `torsion_core`. -/
noncomputable def coilspring_torsion_path (arm angle d length thickness hook : ℝ)
    (div : ℕ) : List Vec3 :=
  let length := if length = 0 then arm * 0.5 else length
  let d := if d = 0 then arm else d
  let thickness := if thickness = 0 then d * 0.1 else thickness
  let hook := if hook = 0 then -length else hook
  torsion_core arm angle d length thickness hook div

end Springs

section RangeStepperLemmas

variable {α : Type} [LinearOrderedField α] [FloorRing α]

theorem NUMPREC_pos : (0:α) < NUMPREC := by norm_num [NUMPREC]

theorem lrLoop_eq_nil {stop step t : α} (h : ¬(t ≤ stop ∧ 0 < step)) :
    lrLoop stop step t = [] := by
  rw [lrLoop, dif_neg h]

theorem lrLoop_eq_cons {stop step t : α} (h1 : t ≤ stop) (h2 : 0 < step) :
    lrLoop stop step t = t :: lrLoop stop step (t + step) := by
  conv_lhs => rw [lrLoop]
  rw [dif_pos ⟨h1, h2⟩]

theorem lrLoop_eq_map {stop step : α} (hs : 0 < step) :
    ∀ (n : ℕ) (t : α), t ≤ stop → ⌊(stop - t) / step⌋.toNat = n →
      lrLoop stop step t =
        (List.range (n + 1)).map (fun k : ℕ => t + (k : α) * step) := by
  intro n
  induction n with
  | zero =>
    intro t ht hn
    have h0 : (0:ℤ) ≤ ⌊(stop - t) / step⌋ :=
      Int.floor_nonneg.mpr (div_nonneg (by linarith) hs.le)
    have hfl : (stop - t) / step < 1 := by
      by_contra hge
      push_neg at hge
      have h1 : (1:ℤ) ≤ ⌊(stop - t) / step⌋ := by
        exact_mod_cast Int.le_floor.mpr (by exact_mod_cast hge)
      omega
    have hstop : stop < t + step := by
      have := (div_lt_one hs).mp hfl
      linarith
    rw [lrLoop_eq_cons ht hs, lrLoop_eq_nil (by
      rintro ⟨hle, -⟩
      linarith)]
    simp [List.range_succ]
  | succ n ih =>
    intro t ht hn
    have h0 : (0:ℤ) ≤ ⌊(stop - t) / step⌋ :=
      Int.floor_nonneg.mpr (div_nonneg (by linarith) hs.le)
    have h1 : (1:ℤ) ≤ ⌊(stop - t) / step⌋ := by omega
    have hfl : (1:α) ≤ (stop - t) / step := by
      calc (1:α) = ((1:ℤ):α) := by norm_num
      _ ≤ ((⌊(stop - t) / step⌋ : ℤ) : α) := by exact_mod_cast h1
      _ ≤ (stop - t) / step := Int.floor_le _
    have ht2 : t + step ≤ stop := by
      have := (one_le_div hs).mp hfl
      linarith
    have heq : (stop - (t + step)) / step = (stop - t) / step - 1 := by
      rw [show stop - (t + step) = stop - t - step by ring, sub_div,
        div_self hs.ne']
    have hn2 : ⌊(stop - (t + step)) / step⌋.toNat = n := by
      rw [heq, Int.floor_sub_one]
      omega
    rw [lrLoop_eq_cons ht hs, ih (t + step) ht2 hn2]
    conv_rhs => rw [List.range_succ_eq_map]
    rw [List.map_cons, List.map_map]
    congr 1
    · simp
    · refine List.map_congr_left ?_
      intro k _
      simp only [Function.comp_apply]
      push_cast
      ring

theorem lrLoop_closed {stop step t : α} (hs : 0 < step) (ht : t ≤ stop) :
    lrLoop stop step t =
      (List.range (⌊(stop - t) / step⌋.toNat + 1)).map
        (fun k : ℕ => t + (k : α) * step) :=
  lrLoop_eq_map hs _ t ht rfl

theorem lrLoop_head {stop step t : α} (hs : 0 < step) (ht : t ≤ stop) :
    (lrLoop stop step t).head? = some t := by
  rw [lrLoop_eq_cons ht hs]
  rfl

theorem lrLoop_mem {stop step t x : α} (hx : x ∈ lrLoop stop step t) :
    0 < step ∧ t ≤ x ∧ x ≤ stop := by
  by_cases h : t ≤ stop ∧ 0 < step
  · obtain ⟨ht, hs⟩ := h
    rw [lrLoop_closed hs ht] at hx
    obtain ⟨k, hk, rfl⟩ := List.mem_map.mp hx
    refine ⟨hs, ?_, ?_⟩
    · have : (0:α) ≤ (k : α) * step := mul_nonneg (Nat.cast_nonneg k) hs.le
      linarith
    · have h0 : (0:ℤ) ≤ ⌊(stop - t) / step⌋ :=
        Int.floor_nonneg.mpr (div_nonneg (by linarith) hs.le)
      have hk2 : k ≤ ⌊(stop - t) / step⌋.toNat := by
        have := List.mem_range.mp hk
        omega
      have hk3 : ((k : ℤ) : α) ≤ ((⌊(stop - t) / step⌋ : ℤ) : α) := by
        exact_mod_cast show (k:ℤ) ≤ ⌊(stop - t) / step⌋ by omega
      have hk4 : (k : α) ≤ (stop - t) / step := by
        calc (k : α) = ((k : ℤ) : α) := by push_cast; ring
        _ ≤ ((⌊(stop - t) / step⌋ : ℤ) : α) := hk3
        _ ≤ (stop - t) / step := Int.floor_le _
      have := (le_div_iff₀ hs).mp hk4
      linarith
  · rw [lrLoop_eq_nil h] at hx
    cases hx

theorem lrLoop_chain {stop step t : α} :
    List.Chain' (fun a b => b - a = step) (lrLoop stop step t) := by
  by_cases h : t ≤ stop ∧ 0 < step
  · rw [lrLoop_closed h.2 h.1, List.chain'_map]
    have := List.chain'_range_succ
      (fun a b : ℕ => (t + (b : α) * step) - (t + (a : α) * step) = step)
      ⌊(stop - t) / step⌋.toNat
    rw [Nat.succ_eq_add_one] at this
    rw [this]
    intro m _
    push_cast
    ring
  · rw [lrLoop_eq_nil h]
    exact List.chain'_nil

theorem linrange_some_some (start stopv s : α) (div : ℕ) (endFlag : Bool) :
    linrange start (some stopv) (some s) div endFlag =
      lrLoop
        ((if endFlag then stopv
          else stopv - (if s * (stopv - start) < 0 then -s else s)) + NUMPREC)
        (if s * (stopv - start) < 0 then -s else s) start := rfl

theorem linrange_some_none (start stopv : α) (div : ℕ) (endFlag : Bool) :
    linrange start (some stopv) none div endFlag =
      lrLoop
        ((if endFlag then stopv else stopv - (stopv - start) / ((div : α) + 1))
          + NUMPREC)
        ((stopv - start) / ((div : α) + 1)) start := rfl

theorem lrLoop_mem_iff_emits {stop step start x : α} (hs : 0 < step) :
    x ∈ lrLoop stop step start ↔ lrEmits start stop step x := by
  constructor
  · intro hx
    obtain ⟨-, -, h2⟩ := lrLoop_mem hx
    by_cases hle : start ≤ stop
    · rw [lrLoop_closed hs hle] at hx
      obtain ⟨k, hk, rfl⟩ := List.mem_map.mp hx
      refine ⟨k, rfl, ?_⟩
      intro j hj
      rw [lrIter]
      have hjk : (j : α) * step ≤ (k : α) * step := by
        have hja : (j : α) ≤ (k : α) := by exact_mod_cast hj
        nlinarith
      linarith
    · rw [lrLoop_eq_nil (by tauto)] at hx
      cases hx
  · rintro ⟨k, rfl, hall⟩
    have hle : start ≤ stop := by
      have h0 := hall 0 (Nat.zero_le k)
      rw [lrIter] at h0
      simpa using h0
    rw [lrLoop_closed hs hle]
    apply List.mem_map.mpr
    refine ⟨k, ?_, rfl⟩
    apply List.mem_range.mpr
    have hk := hall k le_rfl
    rw [lrIter] at hk
    have h1 : (k : α) ≤ (stop - start) / step := by
      rw [le_div_iff₀ hs]
      linarith
    have h2 : (k : ℤ) ≤ ⌊(stop - start) / step⌋ := Int.le_floor.mpr (by
      exact_mod_cast h1)
    have h0 : (0 : ℤ) ≤ (k : ℤ) := by exact_mod_cast Nat.zero_le k
    omega

end RangeStepperLemmas

section RangeStepperClaims

/-- C4: when only `div` is given (no `step`), the step of `linrange` equals
`(stop-start)/(div+1)`: consecutive emitted values differ by exactly that
amount, and `linrange(start=0, stop=10, div=4)` with `end=True` yields
exactly `[0, 2, 4, 6, 8, 10]`, while with `end=False` it stops strictly
before `10`, yielding `[0, 2, 4, 6, 8]`. -/
theorem linrange_div_step :
    (∀ (start stopv : ℚ) (div : ℕ) (endFlag : Bool),
      List.Chain' (fun a b => b - a = (stopv - start) / ((div : ℚ) + 1))
        (linrange start (some stopv) none div endFlag)) ∧
    linrange (0:ℚ) (some 10) none 4 true = [0, 2, 4, 6, 8, 10] ∧
    linrange (0:ℚ) (some 10) none 4 false = [0, 2, 4, 6, 8] := by
  refine ⟨?_, ?_, ?_⟩
  · intro start stopv div endFlag
    rw [linrange_some_none]
    exact lrLoop_chain
  · rw [linrange_some_none]
    have e1 : ((10:ℚ) - 0) / (((4:ℕ) : ℚ) + 1) = 2 := by norm_num
    rw [e1, if_pos rfl]
    rw [lrLoop_eq_map (by norm_num) 5 0 (by norm_num [NUMPREC]) (by
      have h : ⌊((10:ℚ) + NUMPREC - 0) / 2⌋ = 5 := by
        rw [NUMPREC, Int.floor_eq_iff] <;> norm_num
      rw [h]
      rfl)]
    simp [List.range_succ]
    norm_num
  · rw [linrange_some_none]
    have e1 : ((10:ℚ) - 0) / (((4:ℕ) : ℚ) + 1) = 2 := by norm_num
    rw [e1, if_neg (by simp)]
    rw [lrLoop_eq_map (by norm_num) 4 0 (by norm_num [NUMPREC]) (by
      have h : ⌊((10:ℚ) - 2 + NUMPREC - 0) / 2⌋ = 4 := by
        rw [NUMPREC, Int.floor_eq_iff] <;> norm_num
      rw [h]
      rfl)]
    simp [List.range_succ]
    norm_num

/-- C5 counterexample: `linrange(start=0, stop=0, step=-1)` does not flip
its step (`step * (stop - start) = 0` is not `< 0`), and its while loop
yields the value `-1` on the second iteration — every loop-condition
check up to it passes — yet `-1` is below `start = 0`, violating the
claimed `start <= t` bound for an emitted value. -/
theorem linrange_bounds_cex :
    lrEmits (lrNormalize (0:ℚ) (some 0) (some (-1)) 0 true).1
      (lrNormalize (0:ℚ) (some 0) (some (-1)) 0 true).2.1
      (lrNormalize (0:ℚ) (some 0) (some (-1)) 0 true).2.2 (-1) ∧
    ¬ ((0:ℚ) ≤ -1) := by
  constructor
  · simp only [lrNormalize, lrEmits]
    norm_num
    refine ⟨1, by rw [lrIter]; norm_num, ?_⟩
    intro j hj
    interval_cases j
    · rw [lrIter]
      norm_num [NUMPREC]
    · rw [lrIter]
      norm_num [NUMPREC]
  · norm_num

/-- C5 (amended): whenever the effective (normalized) step of `linrange`
is positive — every terminating run — each value yielded by the while
loop lies between `start` and `stop + NUMPREC`, and
`linrange(start=0, stop=1, step=0.3, end=True)` yields exactly
`[0, 0.3, 0.6, 0.9]`, never overshooting `stop` beyond the tolerance.
(The unconditional bound is false: with a non-positive effective step
the loop emits values descending below `start`, see the
counterexample.) -/
theorem linrange_bounds :
    (∀ (start stopv s : ℚ) (div : ℕ) (endFlag : Bool) (t : ℚ),
      0 < (lrNormalize start (some stopv) (some s) div endFlag).2.2 →
      lrEmits (lrNormalize start (some stopv) (some s) div endFlag).1
        (lrNormalize start (some stopv) (some s) div endFlag).2.1
        (lrNormalize start (some stopv) (some s) div endFlag).2.2 t →
      start ≤ t ∧ t ≤ stopv + NUMPREC) ∧
    linrange (0:ℚ) (some 1) (some (3/10)) 0 true = [0, 3/10, 6/10, 9/10] := by
  constructor
  · intro start stopv s div endFlag t hpos hem
    simp only [lrNormalize] at hpos hem
    obtain ⟨k, rfl, hall⟩ := hem
    have hk0 : (0:ℚ) ≤ (k : ℚ) := Nat.cast_nonneg k
    have h0 : (0:ℚ) ≤ (k : ℚ) * (if s * (stopv - start) < 0 then -s else s) := by
      nlinarith
    constructor
    · rw [lrIter]
      linarith
    · have hk := hall k le_rfl
      rw [lrIter] at hk ⊢
      cases endFlag with
      | true =>
        rw [if_pos (show (true = true) from rfl)] at hk
        exact hk
      | false =>
        rw [if_neg (show ¬ (false = true) by simp)] at hk
        linarith
  · rw [linrange_some_some]
    have hflip : ¬ (3/10 : ℚ) * (1 - 0) < 0 := by norm_num
    rw [if_neg hflip, if_pos rfl]
    rw [lrLoop_eq_map (by norm_num) 3 0 (by norm_num [NUMPREC]) (by
      have h : ⌊((1:ℚ) + NUMPREC - 0) / (3/10)⌋ = 3 := by
        rw [NUMPREC, Int.floor_eq_iff] <;> norm_num
      rw [h]
      rfl)]
    simp [List.range_succ]
    norm_num

/-- C5 witness: `linrange(0, 1, 0.3, end=True)` has positive effective
step, and its emitted value `0.3` satisfies the bounds. -/
theorem linrange_bounds_witness :
    (0 < (lrNormalize (0:ℚ) (some 1) (some (3/10)) 0 true).2.2 ∧
      lrEmits (lrNormalize (0:ℚ) (some 1) (some (3/10)) 0 true).1
        (lrNormalize (0:ℚ) (some 1) (some (3/10)) 0 true).2.1
        (lrNormalize (0:ℚ) (some 1) (some (3/10)) 0 true).2.2 (3/10)) ∧
    ((0:ℚ) ≤ 3/10 ∧ (3/10 : ℚ) ≤ 1 + NUMPREC) := by
  have hpos : 0 < (lrNormalize (0:ℚ) (some 1) (some (3/10)) 0 true).2.2 := by
    simp only [lrNormalize]
    rw [if_neg (by norm_num)]
    norm_num
  have hem : lrEmits (lrNormalize (0:ℚ) (some 1) (some (3/10)) 0 true).1
      (lrNormalize (0:ℚ) (some 1) (some (3/10)) 0 true).2.1
      (lrNormalize (0:ℚ) (some 1) (some (3/10)) 0 true).2.2 (3/10) := by
    simp only [lrNormalize, lrEmits]
    norm_num
    refine ⟨1, by rw [lrIter]; norm_num, ?_⟩
    intro j hj
    interval_cases j
    · rw [lrIter]
      norm_num [NUMPREC]
    · rw [lrIter]
      norm_num [NUMPREC]
  exact ⟨⟨hpos, hem⟩, linrange_bounds.1 0 1 (3/10) 0 true (3/10) hpos hem⟩

/-- C6 counterexample: `linrange(start=0, stop=0, step=-1)` has a nonzero
step, yet every iterate of the while loop satisfies the loop condition
`t <= stop`, so the source generator never terminates (the step `-1` is
not sign-flipped because `step * (stop - start) = 0`). -/
theorem linrange_neg_step_diverges :
    lrDiverges (lrNormalize (0:ℚ) (some 0) (some (-1)) 0 true).1
      (lrNormalize (0:ℚ) (some 0) (some (-1)) 0 true).2.1
      (lrNormalize (0:ℚ) (some 0) (some (-1)) 0 true).2.2 := by
  intro k
  have hk : (0:ℚ) ≤ (k : ℚ) := Nat.cast_nonneg k
  simp only [lrNormalize, lrIter, NUMPREC]
  norm_num
  nlinarith

/-- C6 (amended): whenever the effective (normalized) step of `linrange`
is positive, the iteration terminates: some iterate exceeds the adjusted
stop bound. -/
theorem linrange_pos_step_terminates (start : ℚ) (stop? : Option ℚ)
    (step? : Option ℚ) (div : ℕ) (endFlag : Bool)
    (h : 0 < (lrNormalize start stop? step? div endFlag).2.2) :
    ¬ lrDiverges (lrNormalize start stop? step? div endFlag).1
      (lrNormalize start stop? step? div endFlag).2.1
      (lrNormalize start stop? step? div endFlag).2.2 := by
  intro hdiv
  obtain ⟨k, hk⟩ := exists_nat_gt
    (((lrNormalize start stop? step? div endFlag).2.1
        - (lrNormalize start stop? step? div endFlag).1)
      / (lrNormalize start stop? step? div endFlag).2.2)
  have h2 := hdiv k
  rw [lrIter] at h2
  have h3 := (div_lt_iff h).mp hk
  linarith

/-- C6 witness: `linrange(0, 10, 2)` has positive normalized step and
terminates. -/
theorem linrange_pos_step_terminates_witness :
    0 < (lrNormalize (0:ℚ) (some 10) (some 2) 0 true).2.2 ∧
    ¬ lrDiverges (lrNormalize (0:ℚ) (some 10) (some 2) 0 true).1
      (lrNormalize (0:ℚ) (some 10) (some 2) 0 true).2.1
      (lrNormalize (0:ℚ) (some 10) (some 2) 0 true).2.2 := by
  have h : 0 < (lrNormalize (0:ℚ) (some 10) (some 2) 0 true).2.2 := by
    norm_num [lrNormalize]
  exact ⟨h, linrange_pos_step_terminates 0 (some 10) (some 2) 0 true h⟩

/-- C8: when the sign of the given step disagrees with the direction from
`start` to `stop` (i.e. `step * (stop - start) < 0`), `linrange` silently
flips the sign and yields the same sequence as the call with `-step`;
no error is raised (the function is total). -/
theorem linrange_sign_flip (start stopv s : ℚ) (div : ℕ) (endFlag : Bool)
    (h : s * (stopv - start) < 0) :
    linrange start (some stopv) (some s) div endFlag =
      linrange start (some stopv) (some (-s)) div endFlag := by
  rw [linrange_some_some, linrange_some_some]
  have h2 : ¬ (-s) * (stopv - start) < 0 := by nlinarith
  rw [if_pos h, if_neg h2]

/-- C8 witness: `linrange(0, 10, -2)` equals `linrange(0, 10, 2)`. -/
theorem linrange_sign_flip_witness :
    ((-2:ℚ) * (10 - 0) < 0) ∧
    linrange (0:ℚ) (some 10) (some (-2)) 0 true =
      linrange (0:ℚ) (some 10) (some 2) 0 true := by
  have h : ((-2:ℚ) * (10 - 0) < 0) := by norm_num
  refine ⟨h, ?_⟩
  have h2 := linrange_sign_flip 0 10 (-2) 0 true h
  norm_num at h2
  exact h2

end RangeStepperClaims

section TableClaims

theorem nearestEntry_spec {β : Type} (key : β → ℚ) (d : ℚ) (l : List β)
    (hl : l ≠ []) :
    ∃ b, nearestEntry key d l = some b ∧ b ∈ l ∧
      ∀ x ∈ l, |key b - d| ≤ |key x - d| := by
  induction l with
  | nil => exact absurd rfl hl
  | cons b bs ih =>
    cases bs with
    | nil =>
      refine ⟨b, rfl, List.mem_cons_self b [], ?_⟩
      intro x hx
      rw [List.mem_singleton] at hx
      subst hx
      exact le_refl _
    | cons c cs =>
      obtain ⟨m, hm_eq, hm_mem, hm_min⟩ := ih (by simp)
      have hunfold : nearestEntry key d (b :: c :: cs) =
          some (if |key m - d| < |key b - d| then m else b) := by
        have hdefn : nearestEntry key d (b :: c :: cs) =
            match nearestEntry key d (c :: cs) with
            | none => some b
            | some m => some (if |key m - d| < |key b - d| then m else b) := rfl
        rw [hdefn, hm_eq]
      by_cases hlt : |key m - d| < |key b - d|
      · refine ⟨m, ?_, List.mem_cons_of_mem _ hm_mem, ?_⟩
        · rw [hunfold, if_pos hlt]
        · intro x hx
          rcases List.mem_cons.mp hx with rfl | hx2
          · exact hlt.le
          · exact hm_min x hx2
      · refine ⟨b, ?_, List.mem_cons_self _ _, ?_⟩
        · rw [hunfold, if_neg hlt]
        · intro x hx
          rcases List.mem_cons.mp hx with rfl | hx2
          · exact le_refl _
          · exact le_trans (not_lt.mp hlt) (hm_min x hx2)

/-- C7: `nut(d)` succeeds exactly when `d` is a listed nominal diameter
of the hex-nut table (otherwise the no-standard-size error is raised),
while `washer(d)` with `e` and `h` unspecified succeeds exactly when the
nearest table entry differs from `d` by less than 20 percent relative
difference. -/
theorem nut_washer_lookup_spec (d : ℚ) (hd : 0 < d) :
    (exOk (nut_lookup d) = true ↔ d ∈ standard_hexnuts.map (fun a => a.1)) ∧
    (exOk (washer_lookup d) = true ↔
      ∃ a ∈ standard_washers,
        (∀ x ∈ standard_washers, |a.1 - d| ≤ |x.1 - d|) ∧
        |a.1 - d| / d < 0.2) := by
  obtain ⟨b, hb_eq, hb_mem, hb_min⟩ :=
    nearestEntry_spec (fun a => a.1) d standard_hexnuts (by simp [standard_hexnuts])
  obtain ⟨w, hw_eq, hw_mem, hw_min⟩ :=
    nearestEntry_spec (fun a => a.1) d standard_washers (by simp [standard_washers])
  have hnut : nut_lookup d =
      if b.1 ≠ d then Except.error "no standard nut for the given diameter"
      else Except.ok b := by
    rw [nut_lookup, hb_eq]
  have hwash : washer_lookup d =
      if |w.1 - d| / d < 0.2 then Except.ok w
      else Except.error "no standard nut for the given diameter" := by
    rw [washer_lookup, hw_eq]
  constructor
  · rw [hnut]
    constructor
    · intro hok
      by_cases hbd : b.1 = d
      · exact List.mem_map.mpr ⟨b, hb_mem, hbd⟩
      · rw [if_pos hbd] at hok
        simp [exOk] at hok
    · intro hmem
      obtain ⟨a, ham, had⟩ := List.mem_map.mp hmem
      have h1 : |b.1 - d| ≤ |a.1 - d| := hb_min a ham
      rw [had] at h1
      have hbd : b.1 = d := by
        have h0 : |b.1 - d| ≤ 0 := by simpa using h1
        have h2 : |b.1 - d| = 0 := le_antisymm h0 (abs_nonneg _)
        have := abs_eq_zero.mp h2
        linarith
      rw [if_neg (by simp [hbd])]
      rfl
  · rw [hwash]
    constructor
    · intro hok
      by_cases hcond : |w.1 - d| / d < 0.2
      · exact ⟨w, hw_mem, hw_min, hcond⟩
      · rw [if_neg hcond] at hok
        simp [exOk] at hok
    · rintro ⟨a, ham, hamin, ha⟩
      have h1 : |w.1 - d| ≤ |a.1 - d| := hw_min a ham
      have h2 : |w.1 - d| / d ≤ |a.1 - d| / d := (div_le_div_right hd).mpr h1
      rw [if_pos (lt_of_le_of_lt h2 ha)]
      rfl

/-- C7 witness: the exact nominal diameter 8 is accepted by both
lookups. -/
theorem nut_washer_lookup_spec_witness :
    (0:ℚ) < 8 ∧
    ((exOk (nut_lookup 8) = true ↔ (8:ℚ) ∈ standard_hexnuts.map (fun a => a.1)) ∧
      (exOk (washer_lookup 8) = true ↔
        ∃ a ∈ standard_washers,
          (∀ x ∈ standard_washers, |a.1 - (8:ℚ)| ≤ |x.1 - (8:ℚ)|) ∧
          |a.1 - (8:ℚ)| / 8 < 0.2)) :=
  ⟨by norm_num, nut_washer_lookup_spec 8 (by norm_num)⟩

end TableClaims

section SpringLemmas

theorem head?_append_append {γ : Type} {l₁ l₂ l₃ : List γ} {p : γ}
    (h : l₁.head? = some p) : (l₁ ++ l₂ ++ l₃).head? = some p := by
  have hne : l₁ ≠ [] := by
    intro e
    rw [e] at h
    cases h
  rw [List.append_assoc, List.head?_append_of_ne_nil _ hne]
  exact h

theorem getLast?_append_append {γ : Type} {l₁ l₂ l₃ : List γ} {p : γ}
    (h : l₃.getLast? = some p) : (l₁ ++ l₂ ++ l₃).getLast? = some p := by
  have hne : l₃ ≠ [] := by
    intro e
    rw [e] at h
    cases h
  rw [List.getLast?_append_of_ne_nil _ hne]
  exact h

theorem mergeclose_ne_nil : ∀ (l : List Vec3), l ≠ [] → mergeclose l ≠ []
  | [], h => absurd rfl h
  | [p], _ => by
    rw [mergeclose]
    simp
  | p :: q :: rest, _ => by
    rw [mergeclose]
    by_cases h : p = q
    · rw [if_pos h]
      exact mergeclose_ne_nil (q :: rest) (by simp)
    · rw [if_neg h]
      simp

theorem mergeclose_head? : ∀ (l : List Vec3), (mergeclose l).head? = l.head?
  | [] => rfl
  | [_] => rfl
  | p :: q :: rest => by
    rw [mergeclose]
    by_cases h : p = q
    · rw [if_pos h, mergeclose_head? (q :: rest)]
      simp [h]
    · rw [if_neg h]
      rfl

theorem mergeclose_getLast? :
    ∀ (l : List Vec3), (mergeclose l).getLast? = l.getLast?
  | [] => rfl
  | [_] => rfl
  | p :: q :: rest => by
    rw [mergeclose]
    by_cases h : p = q
    · rw [if_pos h, mergeclose_getLast? (q :: rest), List.getLast?_cons_cons]
    · rw [if_neg h]
      obtain ⟨x, xs, hxs⟩ :=
        List.exists_cons_of_ne_nil (mergeclose_ne_nil (q :: rest) (by simp))
      rw [hxs, List.getLast?_cons_cons, ← hxs,
        mergeclose_getLast? (q :: rest), List.getLast?_cons_cons]

theorem linrange_true_head (start stopv s : ℝ) (div : ℕ)
    (hflip : ¬ s * (stopv - start) < 0) (hs : 0 < s)
    (hstart : start ≤ stopv + NUMPREC) :
    (linrange start (some stopv) (some s) div true).head? = some start := by
  rw [linrange_some_some, if_pos rfl, if_neg hflip]
  exact lrLoop_head hs hstart

theorem compression_head (length d thickness : ℝ) (div : ℕ)
    (hd : d ≠ 0) (hth : thickness ≠ 0) :
    (coilspring_compression_path length d thickness div).head? =
      some (d / 2 - thickness, 0, -(0.5 * length)) := by
  have hpi := Real.pi_pos
  have hNp := NUMPREC_pos (α := ℝ)
  have hstep : (0:ℝ) < 2 * Real.pi / ((div : ℝ) + 1) := by positivity
  have hflip : ¬ (2 * Real.pi / ((div : ℝ) + 1)) * ((0 + 4 * Real.pi) - 0) < 0 := by
    push_neg
    rw [show ((0:ℝ) + 4 * Real.pi) - 0 = 4 * Real.pi by ring]
    positivity
  have hstart : (0:ℝ) ≤ 0 + 4 * Real.pi + NUMPREC := by linarith
  simp only [coilspring_compression_path]
  rw [if_neg hd, if_neg hth]
  apply head?_append_append
  rw [List.head?_map,
    linrange_true_head 0 (0 + 4 * Real.pi) (2 * Real.pi / ((div : ℝ) + 1)) 0
      hflip hstep hstart]
  simp [helixPoint]

theorem rotZ_mirror_norm (angle : ℝ) (p : Vec3) :
    (rotZ angle (mirrorXZ p)).1 ^ 2 + (rotZ angle (mirrorXZ p)).2.1 ^ 2 =
      p.1 ^ 2 + p.2.1 ^ 2 := by
  simp only [rotZ, mirrorXZ]
  linear_combination (p.1 ^ 2 + p.2.1 ^ 2) * Real.sin_sq_add_cos_sq angle

theorem torsion_coil_head (angle d length thickness : ℝ) (div : ℕ)
    (hn : 0 < torsion_ncoil angle length thickness) :
    (torsion_coil angle d length thickness div).head? =
      some (0, d / 2 - thickness, torsion_z0 angle length thickness) := by
  have hpi := Real.pi_pos
  have hNp := NUMPREC_pos (α := ℝ)
  have hstep : (0:ℝ) < 2 * Real.pi / ((div : ℝ) + 1) := by positivity
  have hstop : (0:ℝ) < 2 * Real.pi * torsion_ncoil angle length thickness :=
    mul_pos (by positivity) hn
  have hflip : ¬ (2 * Real.pi / ((div : ℝ) + 1)) *
      (2 * Real.pi * torsion_ncoil angle length thickness - 0) < 0 := by
    push_neg
    rw [sub_zero]
    exact le_of_lt (mul_pos hstep hstop)
  have hstart : (0:ℝ) ≤
      2 * Real.pi * torsion_ncoil angle length thickness + NUMPREC := by
    linarith
  rw [torsion_coil, List.head?_map,
    linrange_true_head 0 (2 * Real.pi * torsion_ncoil angle length thickness)
      (2 * Real.pi / ((div : ℝ) + 1)) 0 hflip hstep hstart]
  simp

theorem torsion_core_head (arm angle d length thickness hook : ℝ) (div : ℕ)
    (hn : 0 < torsion_ncoil angle length thickness) :
    (torsion_core arm angle d length thickness hook div).head? =
      some (arm, d / 2 - thickness,
        torsion_hook_eff thickness hook + torsion_z0 angle length thickness) := by
  simp only [torsion_core]
  rw [mergeclose_head?]
  apply head?_append_append
  rw [torsion_coil_head angle d length thickness div hn]
  simp [torsion_top, vadd]

theorem torsion_core_getLast (arm angle d length thickness hook : ℝ) (div : ℕ)
    (hn : 0 < torsion_ncoil angle length thickness) :
    (torsion_core arm angle d length thickness hook div).getLast? =
      some (rotZ (Real.pi - angle) (mirrorXZ (arm, d / 2 - thickness,
        torsion_hook_eff thickness hook + torsion_z0 angle length thickness))) := by
  simp only [torsion_core]
  rw [mergeclose_getLast?]
  apply getLast?_append_append
  rw [List.getLast?_map, List.getLast?_map, List.getLast?_reverse]
  rw [torsion_coil_head angle d length thickness div hn]
  simp [torsion_top, vadd]

theorem torsion_path_5 (div : ℕ) :
    coilspring_torsion_path 5 (Real.pi / 4) 0 0 0 0 div =
      torsion_core 5 (Real.pi / 4) 5 2.5 0.5 (-2.5) div := by
  rw [coilspring_torsion_path]
  norm_num

theorem torsion_ncoil_5 : torsion_ncoil (Real.pi / 4) 2.5 0.5 = 43 / 8 := by
  rw [torsion_ncoil]
  rw [show (2.5:ℝ) / 0.5 = ((5:ℤ):ℝ) by norm_num, Int.ceil_intCast]
  rw [show (Real.pi - Real.pi / 4) / (2 * Real.pi) = 3 / 8 by
    rw [div_eq_iff (ne_of_gt (by positivity : (0:ℝ) < 2 * Real.pi))]
    ring]
  norm_num

theorem torsion_hook_eff_5 : torsion_hook_eff 0.5 (-2.5) = -2.5 := by
  have hsign : sign (-2.5 : ℝ) = -1 := by
    rw [sign, if_neg (by norm_num), if_pos (by norm_num)]
  have hcond : ¬ (|(-2.5:ℝ)| < |(-0.5:ℝ)|) := by
    rw [abs_of_neg (show (-2.5:ℝ) < 0 by norm_num),
      abs_of_neg (show (-0.5:ℝ) < 0 by norm_num)]
    norm_num
  simp only [torsion_hook_eff, hsign]
  rw [show (0.5:ℝ) * -1 = -0.5 by norm_num, if_neg hcond]

theorem torsion5_head (div : ℕ) :
    (coilspring_torsion_path 5 (Real.pi / 4) 0 0 0 0 div).head? =
      some (5, 5 / 2 - 0.5,
        torsion_hook_eff 0.5 (-2.5) + torsion_z0 (Real.pi / 4) 2.5 0.5) := by
  rw [torsion_path_5 div]
  exact torsion_core_head 5 (Real.pi / 4) 5 2.5 0.5 (-2.5) div
    (by rw [torsion_ncoil_5]; norm_num)

theorem torsion5_getLast (div : ℕ) :
    (coilspring_torsion_path 5 (Real.pi / 4) 0 0 0 0 div).getLast? =
      some (rotZ (Real.pi - Real.pi / 4) (mirrorXZ (5, 5 / 2 - 0.5,
        torsion_hook_eff 0.5 (-2.5) + torsion_z0 (Real.pi / 4) 2.5 0.5))) := by
  rw [torsion_path_5 div]
  exact torsion_core_getLast 5 (Real.pi / 4) 5 2.5 0.5 (-2.5) div
    (by rw [torsion_ncoil_5]; norm_num)

/-- C2 counterexample: at `thickness = 3 > d/2 = 2` (negative coil
radius `-1`), `coilspring_compression(10, 4, 3, solid=False)` raises no
error — the line-469 division by `e = r = -1` is well defined — and
silently returns a path whose first point is `(-1, 0, -5)`: a malformed
path is emitted, contrary to the claim that an `InvalidParameter` error
is raised before any geometry is constructed. -/
theorem coilspring_radius_unchecked_cex :
    (coilspring_compression_path 10 4 3 0).head? =
      some ((-1:ℝ), (0:ℝ), (-5:ℝ)) := by
  rw [compression_head 10 4 3 0 (by norm_num) (by norm_num)]
  norm_num

/-- C2 (amended): the spring generators perform no validation of
`thickness` against `diameter/2` and raise no `InvalidParameter`.  For
`thickness > d/2` (restricted to `length <= 4*thickness`, which keeps
the coil-segment angular extent of line 469 nonnegative so every source
loop terminates), `coilspring_compression` silently returns a path whose
first point carries the negative coil radius `x = d/2 - thickness < 0`;
and for every `thickness >= d/2`, `coilspring_torsion` silently returns
a path whose first point has `y = d/2 - thickness <= 0`.  (At exactly
`thickness = d/2` the compression generator instead hits an unguarded
`ZeroDivisionError` in the line-469 division by `e = r = 0`, after the
top turns are already built — still not the claimed
`InvalidParameter`-before-any-geometry.) -/
theorem coilspring_radius_unchecked (length d thickness : ℝ) (div : ℕ)
    (hd : 0 < d) (hth : d / 2 < thickness) (hlen : length ≤ 4 * thickness) :
    (∃ p : Vec3,
      (coilspring_compression_path length d thickness div).head? = some p ∧
      p.1 = d / 2 - thickness ∧ p.1 < 0) ∧
    (∀ th2 : ℝ, d / 2 ≤ th2 →
      ∃ q : Vec3,
        (coilspring_torsion_path 1 (Real.pi / 4) d 0 th2 0 div).head? = some q ∧
        q.2.1 = d / 2 - th2 ∧ q.2.1 ≤ 0) := by
  have hth0 : 0 < thickness := lt_trans (by linarith) hth
  have hdne : d ≠ 0 := ne_of_gt hd
  have hthne : thickness ≠ 0 := ne_of_gt hth0
  constructor
  · exact ⟨_, compression_head length d thickness div hdne hthne, rfl, by linarith⟩
  · intro th2 hth2
    have hth20 : 0 < th2 := lt_of_lt_of_le (by linarith) hth2
    have hth2ne : th2 ≠ 0 := ne_of_gt hth20
    have hpath : coilspring_torsion_path 1 (Real.pi / 4) d 0 th2 0 div =
        torsion_core 1 (Real.pi / 4) d (1 * 0.5) th2 (-(1 * 0.5)) div := by
      rw [coilspring_torsion_path]
      rw [if_pos rfl, if_neg hdne, if_neg hth2ne, if_pos rfl]
    have hn : 0 < torsion_ncoil (Real.pi / 4) (1 * 0.5) th2 := by
      rw [torsion_ncoil]
      have h1 : (0:ℝ) < (1 * 0.5) / th2 := by positivity
      have h2 : (0:ℤ) < ⌈(1 * 0.5) / th2⌉ := Int.ceil_pos.mpr h1
      have h2a : (1:ℤ) ≤ ⌈(1 * 0.5) / th2⌉ := by omega
      have h3 : (1:ℝ) ≤ (⌈(1 * 0.5) / th2⌉ : ℝ) := by exact_mod_cast h2a
      have h4 : 0 < (Real.pi - Real.pi / 4) / (2 * Real.pi) := by
        apply div_pos
        · have := Real.pi_pos
          linarith
        · positivity
      linarith
    rw [hpath]
    exact ⟨_, torsion_core_head 1 (Real.pi / 4) d (1 * 0.5) th2
      (-(1 * 0.5)) div hn, rfl, by linarith⟩

/-- C2 witness: at `d = 4`, `thickness = 3 > d/2` the compression
generator emits geometry with coil radius `-1`, and at the boundary
`th2 = 2 = d/2` the torsion generator emits geometry with coil radius
`0`. -/
theorem coilspring_radius_unchecked_witness :
    ((0:ℝ) < 4 ∧ (4:ℝ) / 2 < 3 ∧ (10:ℝ) ≤ 4 * 3) ∧
    (∃ p : Vec3,
      (coilspring_compression_path 10 4 3 0).head? = some p ∧
      p.1 = 4 / 2 - 3 ∧ p.1 < 0) ∧
    ((4:ℝ) / 2 ≤ 2 ∧
      ∃ q : Vec3,
        (coilspring_torsion_path 1 (Real.pi / 4) 4 0 2 0 0).head? = some q ∧
        q.2.1 = 4 / 2 - 2 ∧ q.2.1 ≤ 0) := by
  have h := coilspring_radius_unchecked 10 4 3 0 (by norm_num) (by norm_num)
    (by norm_num)
  exact ⟨⟨by norm_num, by norm_num, by norm_num⟩, h.1,
    by norm_num, h.2 2 (by norm_num)⟩

/-- C3 counterexample: for `coilspring_torsion(arm=5)` with all other
parameters defaulted (`length=2.5, d=5, thickness=0.5, hook=-2.5`) and
any tessellation subdivision, the first and last points of the path lie
at distance `sqrt 29` from the coil axis, which exceeds `arm = 5` by
more than `1/4`: the claimed distance `arm` (within tolerance) is
wrong.  The arm tip sits at local `x = arm` but is translated by the
coil start point, which itself lies at radius `r = 2` from the axis. -/
theorem coilspring_torsion_arm_cex :
    ((coilspring_torsion_path 5 (Real.pi / 4) 0 0 0 0 0).head?.map
        (fun p : Vec3 => Real.sqrt (p.1 ^ 2 + p.2.1 ^ 2))) =
      some (Real.sqrt 29) ∧
    ((coilspring_torsion_path 5 (Real.pi / 4) 0 0 0 0 0).getLast?.map
        (fun p : Vec3 => Real.sqrt (p.1 ^ 2 + p.2.1 ^ 2))) =
      some (Real.sqrt 29) ∧
    (5:ℝ) + 1 / 4 < Real.sqrt 29 := by
  refine ⟨?_, ?_, ?_⟩
  · rw [torsion5_head 0]
    show some (Real.sqrt ((5:ℝ) ^ 2 + (5 / 2 - 0.5) ^ 2)) = some (Real.sqrt 29)
    norm_num
  · rw [torsion5_getLast 0]
    simp only [Option.map_some']
    rw [rotZ_mirror_norm]
    show some (Real.sqrt ((5:ℝ) ^ 2 + (5 / 2 - 0.5) ^ 2)) = some (Real.sqrt 29)
    norm_num
  · rw [show (5:ℝ) + 1 / 4 = 21 / 4 by norm_num]
    rw [Real.lt_sqrt (by norm_num)]
    norm_num

/-- C3 (amended): for `coilspring_torsion(arm=5)` with defaulted
parameters, the first and last points of the path lie at squared
distance `arm^2 + r^2 = 5^2 + 2^2 = 29` from the coil axis (where
`r = d/2 - thickness = 2` is the coil radius), not at distance `arm`. -/
theorem coilspring_torsion_endpoint_distance (div : ℕ) :
    ((coilspring_torsion_path 5 (Real.pi / 4) 0 0 0 0 div).head?.map
        (fun p : Vec3 => p.1 ^ 2 + p.2.1 ^ 2)) = some ((5:ℝ) ^ 2 + 2 ^ 2) ∧
    ((coilspring_torsion_path 5 (Real.pi / 4) 0 0 0 0 div).getLast?.map
        (fun p : Vec3 => p.1 ^ 2 + p.2.1 ^ 2)) = some ((5:ℝ) ^ 2 + 2 ^ 2) := by
  constructor
  · rw [torsion5_head div]
    show some ((5:ℝ) ^ 2 + (5 / 2 - 0.5) ^ 2) = some ((5:ℝ) ^ 2 + 2 ^ 2)
    norm_num
  · rw [torsion5_getLast div]
    simp only [Option.map_some']
    rw [rotZ_mirror_norm]
    show some ((5:ℝ) ^ 2 + (5 / 2 - 0.5) ^ 2) = some ((5:ℝ) ^ 2 + 2 ^ 2)
    norm_num

/-- C9: the derived quantities of `coilspring_tension(length, d,
thickness)` (for truthy `d` and `thickness`) are the coil radius
`r = d/2 - thickness`, the spring length `length - 2r`, the active-coil
count `floor((length - 2r)/thickness) - 0.5` and the hook offset
`hold = length/2 - r`. -/
theorem coilspring_tension_derived_spec (length d thickness : ℝ)
    (hd : d ≠ 0) (hth : thickness ≠ 0) :
    coilspring_tension_derived length d thickness =
      (d / 2 - thickness,
       length - 2 * (d / 2 - thickness),
       (⌊(length - 2 * (d / 2 - thickness)) / thickness⌋ : ℝ) - 0.5,
       length / 2 - (d / 2 - thickness)) := by
  simp only [coilspring_tension_derived]
  rw [if_neg hd, if_neg hth]
  refine congrArg₂ _ rfl (congrArg₂ _ rfl (congrArg₂ _ rfl ?_))
  ring

/-- C9 witness: at `length = 10`, `d = 2`, `thickness = 1/2` the derived
quantities match the claimed formulas. -/
theorem coilspring_tension_derived_spec_witness :
    ((2:ℝ) ≠ 0 ∧ (1/2 : ℝ) ≠ 0) ∧
    coilspring_tension_derived 10 2 (1/2) =
      ((2:ℝ) / 2 - 1/2,
       10 - 2 * ((2:ℝ) / 2 - 1/2),
       (⌊(10 - 2 * ((2:ℝ) / 2 - 1/2)) / (1/2)⌋ : ℝ) - 0.5,
       10 / 2 - ((2:ℝ) / 2 - 1/2)) :=
  ⟨⟨by norm_num, by norm_num⟩,
    coilspring_tension_derived_spec 10 2 (1/2) (by norm_num) (by norm_num)⟩

/-- C10: in `coilspring_torsion`, a hook argument with
`0 < |hook| < thickness` is replaced by `thickness * sign(hook)` (the
magnitude is clamped up to the wire thickness, the sign preserved),
while for `|hook| >= thickness` the given hook value is used unchanged;
`torsion_hook_eff` is the clamp used to build the arm endpoints in
`coilspring_torsion_path`. -/
theorem torsion_hook_clamp (thickness hook : ℝ) :
    (0 < |hook| → |hook| < thickness →
      torsion_hook_eff thickness hook = thickness * sign hook) ∧
    (0 < thickness → thickness ≤ |hook| →
      torsion_hook_eff thickness hook = hook) := by
  constructor
  · intro h1 h2
    have hhne : hook ≠ 0 := by
      intro e
      rw [e] at h1
      simp at h1
    have habs : |sign hook| = 1 := by
      rcases lt_trichotomy hook 0 with h | h | h
      · rw [sign, if_neg (by linarith), if_pos h]
        norm_num
      · exact absurd h hhne
      · rw [sign, if_pos h]
        norm_num
    have hth0 : 0 < thickness := lt_trans h1 h2
    have hc : |thickness * sign hook| = thickness := by
      rw [abs_mul, habs, mul_one, abs_of_pos hth0]
    simp only [torsion_hook_eff]
    rw [if_pos (by rw [hc]; exact h2)]
  · intro h1 h2
    have hkey : |thickness * sign hook| ≤ |hook| := by
      rw [abs_mul]
      have hs1 : |sign hook| ≤ 1 := by
        rw [sign]
        split_ifs <;> norm_num
      calc |thickness| * |sign hook| ≤ |thickness| * 1 := by
            nlinarith [abs_nonneg thickness]
      _ = thickness := by rw [mul_one, abs_of_pos h1]
      _ ≤ |hook| := h2
    simp only [torsion_hook_eff]
    rw [if_neg (not_lt.mpr hkey)]

/-- C10 witness: with `thickness = 1/2`, the hook `-1/4` is clamped to
`-1/2` while the hook `-3` is kept. -/
theorem torsion_hook_clamp_witness :
    ((0:ℝ) < |(-1/4 : ℝ)| ∧ |(-1/4 : ℝ)| < 1/2 ∧
      torsion_hook_eff (1/2) (-1/4) = (1/2) * sign (-1/4)) ∧
    ((0:ℝ) < 1/2 ∧ (1/2 : ℝ) ≤ |(-3 : ℝ)| ∧
      torsion_hook_eff (1/2) (-3) = -3) := by
  have e1 : |(-1/4 : ℝ)| = 1/4 := by
    rw [abs_of_neg (by norm_num)]
    norm_num
  have e2 : |(-3 : ℝ)| = 3 := by
    rw [abs_of_neg (by norm_num)]
    norm_num
  have h1 : (0:ℝ) < |(-1/4 : ℝ)| := by rw [e1]; norm_num
  have h2 : |(-1/4 : ℝ)| < 1/2 := by rw [e1]; norm_num
  have h3 : (0:ℝ) < 1/2 := by norm_num
  have h4 : (1/2 : ℝ) ≤ |(-3 : ℝ)| := by rw [e2]; norm_num
  exact ⟨⟨h1, h2, (torsion_hook_clamp (1/2) (-1/4)).1 h1 h2⟩,
    ⟨h3, h4, (torsion_hook_clamp (1/2) (-3)).2 h3 h4⟩⟩

end SpringLemmas

end Madcad
